import Mathlib

/-!
# Verification of `generic-array` sequence transforms

Shallow embedding of `src/sequence.rs`: the `Lengthen` (`append`/`prepend`),
`Shorten` (`pop_back`/`pop_front`), `Split` and `Concat` impls for
`GenericArray<T, N>`.

A `GenericArray<T, N>` is a contiguous block of exactly `N` elements of
type `T`; we model it as a list of length `N`.  The raw-pointer block
moves of the source become the corresponding list operations on the
element sequence:

* `append`: `ptr::write(longer.as_mut_ptr(), self)` places the `N` input
  elements at output offsets `[0, N)` and `ptr::write(&mut longer[N], last)`
  places `last` at offset `N`, so the output element sequence is
  `self ++ [last]`.
* `prepend`: `first` is placed at offset `0` and the input block at
  offsets `[1, N]`, so the output is `first :: self`.
* `pop_back` (input length `N`, with `N ≥ 1` enforced by `N: Sub<B1>`):
  `init` is the block read of `N-1` elements at offset `0`, `last` is the
  single read at offset `N-1`.
* `pop_front`: `head` is the read at offset `0`, `tail` the block read of
  `N-1` elements at offset `1`.
* `split` at pivot `K` (with `K ≤ N` enforced by `N: Sub<K>`): `head` is
  the block read of `K` elements at offset `0`, `tail` the block read of
  `N-K` elements at offset `K`.
* `concat`: the `N` elements of `self` are placed at output offsets
  `[0, N)` and the `M` elements of `rest` at offsets `[N, N+M)`.

The typenum constraints `N: Sub<B1>` and `N: Sub<K>` make the shrink and
split operations statically uncallable when the length relationship fails;
we render them as an `N + 1` length index (for the shrink pair) and an
explicit `K ≤ N` hypothesis (for split).
-/

/-- `GenericArray T N`: a contiguous, exclusively-owned block of exactly
`N` elements of type `T`, modelled by its element sequence. -/
abbrev GenericArray (T : Type u) (N : Nat) : Type u :=
  { l : List T // l.length = N }

namespace GenericArray

variable {T : Type u} {N M : Nat}

/-- `Lengthen::append`: writes `self` at output offsets `[0, N)` and
`last` at offset `N`. -/
def append (a : GenericArray T N) (last : T) : GenericArray T (N + 1) :=
  ⟨a.val ++ [last], by simp [a.property]⟩

/-- `Lengthen::prepend`: writes `first` at output offset `0` and `self`
at output offsets `[1, N]`. -/
def prepend (a : GenericArray T N) (first : T) : GenericArray T (N + 1) :=
  ⟨first :: a.val, by simp [a.property]⟩

/-- `Shorten::pop_back`: reads `init` as the block of `N` elements at
offset `0` and `last` as the single element at offset `N` (the source's
`Sub1::<N>::to_usize()` for input length `N + 1`), then forgets `self`. -/
def pop_back (a : GenericArray T (N + 1)) : GenericArray T N × T :=
  (⟨a.val.take N, by simp [a.property]⟩,
   a.val.get ⟨N, by rw [a.property]; exact Nat.lt_succ_self N⟩)

/-- `Shorten::pop_front`: reads `head` as the single element at offset
`0` and `tail` as the block of `N` elements at offset `1`, then forgets
`self`. -/
def pop_front (a : GenericArray T (N + 1)) : T × GenericArray T N :=
  (a.val.get ⟨0, by rw [a.property]; exact Nat.succ_pos N⟩,
   ⟨a.val.drop 1, by simp [a.property]⟩)

/-- `Split::split`: reads `head` as the block of `K` elements at offset
`0` and `tail` as the block of `N - K` elements at offset `K`, then
forgets `self`.  The typenum bound `N: Sub<K>` is the hypothesis
`K ≤ N`. -/
def split (K : Nat) (a : GenericArray T N) (h : K ≤ N) :
    GenericArray T K × GenericArray T (N - K) :=
  (⟨a.val.take K, by simp [a.property]; omega⟩,
   ⟨a.val.drop K, by simp [a.property]⟩)

/-- `Concat::concat`: writes `self` at output offsets `[0, N)` and
`rest` at output offsets `[N, N+M)`. -/
def concat (a : GenericArray T N) (b : GenericArray T M) :
    GenericArray T (N + M) :=
  ⟨a.val ++ b.val, by simp [a.property, b.property]⟩

/-- The empty sequence, for the boundary cases of split and concat. -/
def empty (T : Type u) : GenericArray T 0 := ⟨[], rfl⟩

end GenericArray

/-- The spec's concrete scenario sequence `[1, 2, 3]`. -/
def seq123 : GenericArray Nat 3 := ⟨[1, 2, 3], rfl⟩

/-- The spec's concrete scenario sequence `[1, 2, 3, 4]`. -/
def seq1234 : GenericArray Nat 4 := ⟨[1, 2, 3, 4], rfl⟩

/-- The spec's concrete scenario sequence `[1, 2]`. -/
def seq12 : GenericArray Nat 2 := ⟨[1, 2], rfl⟩

/-- The spec's concrete scenario sequence `[3, 4]`. -/
def seq34 : GenericArray Nat 2 := ⟨[3, 4], rfl⟩

/-- Total read at a valid index, in optional-read form. -/
theorem list_getElem?_eq_some_get {T : Type u} (l : List T) (n : Nat)
    (h : n < l.length) :
    l[n]? = some (l.get ⟨n, h⟩) := by
  rw [List.get_eq_getElem]
  exact List.getElem?_eq_getElem h

/-- Reading the element at index `l.length` of `l ++ [e]` (the source's
final write position in `append`) yields `e`. -/
theorem list_get_concat_length {T : Type u} (l : List T) (e : T)
    (h : l.length < (l ++ [e]).length) :
    (l ++ [e]).get ⟨l.length, h⟩ = e := by
  apply Option.some.inj
  rw [List.get_eq_getElem, ← List.getElem?_eq_getElem]
  exact List.getElem?_concat_length l e

open GenericArray in
/-- Claim C1: for every sequence `s` of any length `N` and every element `e`,
`pop_back (append s e) = (s, e)` and `pop_front (prepend s e) = (e, s)`:
the grow and shrink operations are exact inverses. -/
theorem claim_C1 {T : Type} (N : Nat) (s : GenericArray T N) (e : T) :
    (s.append e).pop_back = (s, e) ∧ (s.prepend e).pop_front = (e, s) := by
  obtain ⟨l, hl⟩ := s
  subst hl
  refine ⟨Prod.ext ?_ ?_, Prod.ext ?_ ?_⟩
  · exact Subtype.ext (List.take_left l [e])
  · show (l ++ [e]).get ⟨l.length, _⟩ = e
    exact list_get_concat_length l e _
  · rfl
  · rfl

open GenericArray in
/-- Claim C3: `append seq last` returns a sequence of length `N + 1` whose
element `i` equals `seq`'s element `i` for every `0 ≤ i < N`, in the same
order, and whose element `N` equals `last`. -/
theorem claim_C3 {T : Type} (N : Nat) (s : GenericArray T N) (last : T) :
    (s.append last).val.length = N + 1 ∧
    (∀ i, i < N → (s.append last).val[i]? = s.val[i]?) ∧
    (s.append last).val[N]? = some last := by
  obtain ⟨l, hl⟩ := s
  subst hl
  refine ⟨?_, fun i hi => ?_, ?_⟩
  · show (l ++ [last]).length = l.length + 1
    simp
  · show (l ++ [last])[i]? = l[i]?
    exact List.getElem?_append_left hi
  · show (l ++ [last])[l.length]? = some last
    exact List.getElem?_concat_length l last

/-- Witness for C3 at the spec's concrete scenario `append([1,2,3], 4)`. -/
theorem claim_C3_witness :
    (seq123.append 4).val.length = 3 + 1 ∧
    (∀ i, i < 3 → (seq123.append 4).val[i]? = seq123.val[i]?) ∧
    (seq123.append 4).val[3]? = some 4 :=
  claim_C3 3 seq123 4

open GenericArray in
/-- Claim C4: `prepend seq first` returns a sequence of length `N + 1` whose
element `0` equals `first` and whose element `i + 1` equals `seq`'s element
`i` for every `0 ≤ i < N`. -/
theorem claim_C4 {T : Type} (N : Nat) (s : GenericArray T N) (first : T) :
    (s.prepend first).val.length = N + 1 ∧
    (s.prepend first).val[0]? = some first ∧
    (∀ i, i < N → (s.prepend first).val[i + 1]? = s.val[i]?) := by
  refine ⟨(s.prepend first).property, ?_, fun i _ => ?_⟩
  · show (first :: s.val)[0]? = some first
    exact List.getElem?_cons_zero
  · show (first :: s.val)[i + 1]? = s.val[i]?
    exact List.getElem?_cons_succ

/-- Witness for C4 at the spec's concrete scenario `prepend([1,2,3], 4)`. -/
theorem claim_C4_witness :
    (seq123.prepend 4).val.length = 3 + 1 ∧
    (seq123.prepend 4).val[0]? = some 4 ∧
    (∀ i, i < 3 → (seq123.prepend 4).val[i + 1]? = seq123.val[i]?) :=
  claim_C4 3 seq123 4

open GenericArray in
/-- Claim C5: for every sequence of length `N + 1` (length `0` being
statically unrepresentable for this call), `pop_back` returns the first `N`
elements in their original order together with the last element: the short
part has length `N`, re-appending the returned element recovers the input
element sequence exactly, and the returned element is the input's last
element. -/
theorem claim_C5 {T : Type} (N : Nat) (a : GenericArray T (N + 1)) :
    a.pop_back.1.val.length = N ∧
    a.pop_back.1.val ++ [a.pop_back.2] = a.val ∧
    a.val.getLast? = some a.pop_back.2 := by
  obtain ⟨l, hl⟩ := a
  have hne : l ≠ [] := by
    intro h
    rw [h] at hl
    exact Nat.succ_ne_zero N hl.symm
  have hNlt : N < l.length := by rw [hl]; exact Nat.lt_succ_self N
  have hlast : l.getLast? = some (l.get ⟨N, hNlt⟩) := by
    rw [List.getLast?_eq_getElem?, ← list_getElem?_eq_some_get l N hNlt, hl]
    simp
  have hgetLast : l.get ⟨N, hNlt⟩ = l.getLast hne := by
    have h2 := List.getLast?_eq_getLast l hne
    rw [hlast] at h2
    exact Option.some.inj h2
  have htake : l.take N = l.dropLast := by
    rw [List.dropLast_eq_take, hl]
    simp
  refine ⟨?_, ?_, ?_⟩
  · show (l.take N).length = N
    rw [List.length_take, hl]
    exact Nat.min_eq_left (Nat.le_succ N)
  · show l.take N ++ [l.get ⟨N, _⟩] = l
    rw [htake, hgetLast]
    exact List.dropLast_concat_getLast hne
  · show l.getLast? = some (l.get ⟨N, _⟩)
    exact hlast

open GenericArray in
/-- Claim C6: for every sequence of length `N + 1`, `pop_front` returns the
first element together with the remaining `N` elements in their original
order: the returned element is the input's first element, the tail has
length `N`, and re-prepending the returned element recovers the input
element sequence exactly. -/
theorem claim_C6 {T : Type} (N : Nat) (a : GenericArray T (N + 1)) :
    a.val.head? = some a.pop_front.1 ∧
    a.pop_front.2.val.length = N ∧
    a.pop_front.1 :: a.pop_front.2.val = a.val := by
  obtain ⟨l, hl⟩ := a
  refine ⟨?_, ?_, ?_⟩
  · show l.head? = some (l.get ⟨0, _⟩)
    rw [List.head?_eq_getElem?, List.get_eq_getElem]
    exact List.getElem?_eq_getElem _
  · show (l.drop 1).length = N
    rw [List.length_drop, hl]
    omega
  · show l.get ⟨0, _⟩ :: l.drop 1 = l
    rw [List.get_eq_getElem]
    exact (List.drop_eq_getElem_cons _).symm

open GenericArray in
/-- Claim C2: concatenating the two parts returned by `split K s` yields
`s` again (for any pivot `K ≤ N`), and splitting `concat s1 s2` at pivot
`N` returns exactly `(s1, s2)`: split and concat are exact inverses at
matching pivots. -/
theorem claim_C2 {T : Type} (N M K : Nat) (h : K ≤ N) (s : GenericArray T N)
    (s1 : GenericArray T N) (s2 : GenericArray T M) :
    ((s.split K h).1.concat (s.split K h).2).val = s.val ∧
    ((s1.concat s2).split N (Nat.le_add_right N M)).1 = s1 ∧
    ((s1.concat s2).split N (Nat.le_add_right N M)).2.val = s2.val := by
  refine ⟨?_, ?_, ?_⟩
  · show s.val.take K ++ s.val.drop K = s.val
    exact List.take_append_drop K s.val
  · refine Subtype.ext ?_
    show (s1.val ++ s2.val).take N = s1.val
    exact List.take_left' s1.property
  · show (s1.val ++ s2.val).drop N = s2.val
    exact List.drop_left' s1.property

/-- Witness for C2 at the spec's concrete scenario: splitting `[1,2]` at
pivot `1` and re-concatenating, and splitting `concat([1,2],[3,4])` at
pivot `2`. -/
theorem claim_C2_witness :
    1 ≤ 2 ∧
    (((seq12.split 1 (by decide)).1.concat (seq12.split 1 (by decide)).2).val
       = seq12.val ∧
     ((seq12.concat seq34).split 2 (Nat.le_add_right 2 2)).1 = seq12 ∧
     ((seq12.concat seq34).split 2 (Nat.le_add_right 2 2)).2.val = seq34.val) :=
  ⟨by decide, claim_C2 2 2 1 (by decide) seq12 seq12 seq34⟩

open GenericArray in
/-- Claim C7: `split K s` (with compile-time pivot `0 ≤ K ≤ N`) returns a
first part of length `K` holding `s`'s elements at positions `[0, K)` in
order, and a second part of length `N - K` holding `s`'s elements at
positions `[K, N)` in order; the boundary pivots `K = 0` and `K = N` are
valid and yield one empty output with the whole sequence as the other
output. -/
theorem claim_C7 {T : Type} (N K : Nat) (h : K ≤ N) (s : GenericArray T N) :
    (s.split K h).1.val.length = K ∧
    (s.split K h).2.val.length = N - K ∧
    (∀ i, i < K → (s.split K h).1.val[i]? = s.val[i]?) ∧
    (∀ i, i < N - K → (s.split K h).2.val[i]? = s.val[K + i]?) ∧
    (s.split 0 (Nat.zero_le N)).1.val = [] ∧
    (s.split 0 (Nat.zero_le N)).2.val = s.val ∧
    (s.split N (Nat.le_refl N)).1.val = s.val ∧
    (s.split N (Nat.le_refl N)).2.val = [] := by
  obtain ⟨l, hl⟩ := s
  subst hl
  refine ⟨?_, ?_, fun i hi => ?_, fun i hi => ?_, rfl, rfl, ?_, ?_⟩
  · show (l.take K).length = K
    rw [List.length_take]
    exact Nat.min_eq_left h
  · show (l.drop K).length = l.length - K
    rw [List.length_drop]
  · show (l.take K)[i]? = l[i]?
    exact List.getElem?_take_of_lt hi
  · show (l.drop K)[i]? = l[K + i]?
    exact List.getElem?_drop l K i
  · show l.take l.length = l
    exact List.take_length l
  · show l.drop l.length = []
    exact List.drop_length l

/-- Witness for C7 at the spec's concrete scenario `split<2>([1,2,3,4])`. -/
theorem claim_C7_witness :
    2 ≤ 4 ∧
    ((seq1234.split 2 (by decide)).1.val.length = 2 ∧
     (seq1234.split 2 (by decide)).2.val.length = 4 - 2 ∧
     (∀ i, i < 2 → (seq1234.split 2 (by decide)).1.val[i]? = seq1234.val[i]?) ∧
     (∀ i, i < 4 - 2 →
       (seq1234.split 2 (by decide)).2.val[i]? = seq1234.val[2 + i]?) ∧
     (seq1234.split 0 (Nat.zero_le 4)).1.val = [] ∧
     (seq1234.split 0 (Nat.zero_le 4)).2.val = seq1234.val ∧
     (seq1234.split 4 (Nat.le_refl 4)).1.val = seq1234.val ∧
     (seq1234.split 4 (Nat.le_refl 4)).2.val = []) :=
  ⟨by decide, claim_C7 4 2 (by decide) seq1234⟩

open GenericArray in
/-- Claim C8: `concat s rest` returns a sequence of length `N + M` whose
elements at positions `[0, N)` equal `s`'s elements in order and whose
elements at positions `[N, N + M)` equal `rest`'s elements in order; in
particular concatenating with the empty sequence on either side yields
the other sequence's elements unchanged. -/
theorem claim_C8 {T : Type} (N M : Nat) (s : GenericArray T N)
    (rest : GenericArray T M) :
    (s.concat rest).val.length = N + M ∧
    (∀ i, i < N → (s.concat rest).val[i]? = s.val[i]?) ∧
    (∀ i, i < M → (s.concat rest).val[N + i]? = rest.val[i]?) ∧
    ((GenericArray.empty T).concat s).val = s.val ∧
    (s.concat (GenericArray.empty T)).val = s.val := by
  obtain ⟨l, hl⟩ := s
  obtain ⟨r, hr⟩ := rest
  subst hl
  subst hr
  refine ⟨?_, fun i hi => ?_, fun i hi => ?_, rfl, ?_⟩
  · show (l ++ r).length = l.length + r.length
    simp
  · show (l ++ r)[i]? = l[i]?
    exact List.getElem?_append_left hi
  · show (l ++ r)[l.length + i]? = r[i]?
    rw [List.getElem?_append_right (Nat.le_add_right l.length i)]
    simp
  · show l ++ [] = l
    exact List.append_nil l

/-- Witness for C8 at the spec's concrete scenario `concat([1,2],[3,4])`. -/
theorem claim_C8_witness :
    (seq12.concat seq34).val.length = 2 + 2 ∧
    (∀ i, i < 2 → (seq12.concat seq34).val[i]? = seq12.val[i]?) ∧
    (∀ i, i < 2 → (seq12.concat seq34).val[2 + i]? = seq34.val[i]?) ∧
    ((GenericArray.empty Nat).concat seq12).val = seq12.val ∧
    (seq12.concat (GenericArray.empty Nat)).val = seq12.val :=
  claim_C8 2 2 seq12 seq34

open GenericArray in
/-- Claim C10: the shrink operations agree with `split` at the
corresponding pivot even though they are implemented independently: for a
sequence of length `N + 1`, splitting at pivot `1` yields the singleton of
`pop_front`'s head together with `pop_front`'s tail, and splitting at
pivot `N` yields `pop_back`'s initial part together with the singleton of
`pop_back`'s last element. -/
theorem claim_C10 {T : Type} (N : Nat) (s : GenericArray T (N + 1)) :
    (s.split 1 (Nat.succ_le_succ (Nat.zero_le N))).1.val = [s.pop_front.1] ∧
    (s.split 1 (Nat.succ_le_succ (Nat.zero_le N))).2.val = s.pop_front.2.val ∧
    (s.split N (Nat.le_succ N)).1.val = s.pop_back.1.val ∧
    (s.split N (Nat.le_succ N)).2.val = [s.pop_back.2] := by
  obtain ⟨l, hl⟩ := s
  refine ⟨?_, rfl, rfl, ?_⟩
  · show l.take 1 = [l.get ⟨0, _⟩]
    cases l with
    | nil => exact absurd hl.symm (Nat.succ_ne_zero N)
    | cons a t => rfl
  · show l.drop N = [l.get ⟨N, _⟩]
    have h1 : N < l.length := by rw [hl]; exact Nat.lt_succ_self N
    rw [List.drop_eq_getElem_cons h1]
    congr 1
    show l.drop (N + 1) = []
    rw [← hl]
    exact List.drop_length l

/-!
## Memory-safety contract (claim C9)

Each transform relocates elements with raw block moves: `mem::uninitialized`
buffers populated by `ptr::write`, and consumed buffers emptied by
`ptr::read` followed by `mem::forget`.  We record the footprint of every
such block move as a pair `(off, count)`: the contiguous element offsets
`[off, off + count)` it touches within its buffer, exactly as computed by
the source's pointer arithmetic.  The safety contract then says that, for
each transform, the writes into a freshly allocated output buffer cover
every output slot exactly once (each source element gets exactly one
destination, and no output slot is left uninitialized or written twice),
that the reads out of a consumed input buffer cover every input slot
exactly once (no element is duplicated or leaked by the relocation), and
that no transform lets the consumed input's destructor run again after the
relocation.
-/

/-- How many of the block footprints in `bs` cover element offset `j`. -/
def coverCount : List (Nat × Nat) → Nat → Nat
  | [], _ => 0
  | b :: bs, j => (if b.1 ≤ j ∧ j < b.1 + b.2 then 1 else 0) + coverCount bs j

/-- The footprints `bs` stay inside a buffer of `len` elements and cover
each of its element offsets exactly once. -/
def tilesExactly (len : Nat) (bs : List (Nat × Nat)) : Prop :=
  (∀ b ∈ bs, b.1 + b.2 ≤ len) ∧ ∀ j, j < len → coverCount bs j = 1

/-- `append`'s writes into its uninitialized output buffer of length
`N + 1`: `ptr::write(longer.as_mut_ptr() as *mut _, self)` covers offsets
`[0, N)`, and `ptr::write(&mut longer[N::to_usize()], last)` covers
offset `N`. -/
def append_writes (N : Nat) : List (Nat × Nat) := [(0, N), (N, 1)]

/-- `prepend`'s writes into its output buffer of length `N + 1`: `first`
at offset `0`, then `self` at `longer_ptr.offset(1)`, covering `[1, N]`. -/
def prepend_writes (N : Nat) : List (Nat × Nat) := [(0, 1), (1, N)]

/-- `concat`'s writes into its output buffer of length `N + M`: `self` at
offset `0` covering `[0, N)`, then `rest` at
`output_ptr.offset(N::to_usize())`, covering `[N, N + M)`. -/
def concat_writes (N M : Nat) : List (Nat × Nat) := [(0, N), (N, M)]

/-- `pop_back`'s reads out of its consumed input buffer of length `N + 1`:
`ptr::read(init_ptr)` covers offsets `[0, N)` (the whole `Shorter` block)
and `ptr::read(last_ptr)` with `last_ptr = init_ptr.offset(Sub1::<N>)`
covers offset `N`. -/
def pop_back_reads (N : Nat) : List (Nat × Nat) := [(0, N), (N, 1)]

/-- `pop_front`'s reads out of its consumed input buffer of length
`N + 1`: `head` at offset `0`, then the tail block at
`head_ptr.offset(1)`, covering `[1, N]`. -/
def pop_front_reads (N : Nat) : List (Nat × Nat) := [(0, 1), (1, N)]

/-- `split`'s reads out of its consumed input buffer of length `N`: the
first block of `K` elements at offset `0`, then the second block at
`head_ptr.offset(K::to_usize())`, covering `[K, N)`. -/
def split_reads (N K : Nat) : List (Nat × Nat) := [(0, K), (K, N - K)]

/-- The six transforms of the sequence core. -/
inductive Transform : Type
  | append
  | prepend
  | pop_back
  | pop_front
  | split
  | concat

/-- Read off the source: whether a transform lets the backing storage of a
consumed input be released again after its elements have been relocated.
`append`, `prepend` and `concat` move each consumed sequence by value into
a `ptr::write`, so no destructor runs on the moved-from value, and
`pop_back`, `pop_front` and `split` call `mem::forget(self)` right after
the raw reads, so the relocation itself is the input's only destruction. -/
def releasesConsumedInputAgain : Transform → Bool
  | .append => false
  | .prepend => false
  | .pop_back => false
  | .pop_front => false
  | .split => false
  | .concat => false

/-- Two adjacent blocks starting at offset `0` tile a buffer exactly when
their sizes sum to its length. -/
theorem tilesExactly_two (a b len : Nat) (hab : a + b = len) :
    tilesExactly len [(0, a), (a, b)] := by
  constructor
  · intro x hx
    simp only [List.mem_cons, List.not_mem_nil, or_false] at hx
    rcases hx with rfl | rfl <;> simp <;> omega
  · intro j hj
    simp only [coverCount]
    rcases Nat.lt_or_ge j a with hja | hja
    · rw [if_pos ⟨Nat.zero_le j, by omega⟩, if_neg (by omega)]
    · rw [if_neg (by omega), if_pos ⟨hja, by omega⟩]

open Transform in
/-- Claim C9: for every transform among `append`, `prepend`, `pop_back`,
`pop_front`, `split` and `concat`, the writes into a freshly allocated
output buffer cover each output slot exactly once before the output is
treated as valid (each source element gets exactly one destination
location and no output slot is read while uninitialized), the reads out of
a consumed input buffer cover each input slot exactly once (no element is
duplicated or skipped by the relocation), and the consumed input's backing
storage is never independently released after the relocation. -/
theorem claim_C9 (N M K : Nat) (h : K ≤ N) :
    tilesExactly (N + 1) (append_writes N) ∧
    tilesExactly (N + 1) (prepend_writes N) ∧
    tilesExactly (N + M) (concat_writes N M) ∧
    tilesExactly (N + 1) (pop_back_reads N) ∧
    tilesExactly (N + 1) (pop_front_reads N) ∧
    tilesExactly N (split_reads N K) ∧
    (∀ t, releasesConsumedInputAgain t = false) := by
  refine ⟨tilesExactly_two N 1 (N + 1) rfl,
    tilesExactly_two 1 N (N + 1) (Nat.add_comm 1 N),
    tilesExactly_two N M (N + M) rfl,
    tilesExactly_two N 1 (N + 1) rfl,
    tilesExactly_two 1 N (N + 1) (Nat.add_comm 1 N),
    tilesExactly_two K (N - K) N (by omega),
    fun t => by cases t <;> rfl⟩

/-- Witness for C9 with lengths `N = 2`, `M = 2` and pivot `K = 1`. -/
theorem claim_C9_witness :
    1 ≤ 2 ∧
    (tilesExactly (2 + 1) (append_writes 2) ∧
     tilesExactly (2 + 1) (prepend_writes 2) ∧
     tilesExactly (2 + 2) (concat_writes 2 2) ∧
     tilesExactly (2 + 1) (pop_back_reads 2) ∧
     tilesExactly (2 + 1) (pop_front_reads 2) ∧
     tilesExactly 2 (split_reads 2 1) ∧
     (∀ t, releasesConsumedInputAgain t = false)) :=
  ⟨by decide, claim_C9 2 2 1 (by decide)⟩
